import Mathlib

/-!
Shallow embedding of the send-anywhere-lite file-transfer core
(`src/client/src/webrtc.js`): the chunked sender `sendFileOverRTC`,
the receiver handler installed by `setupReceive`, and the
signaling/negotiation wiring of `createWebRTCConnection`.

Frame payloads are byte lists (`List Nat`); JS numbers used as sizes and
counters are `Nat`; the float percentages passed to progress callbacks
are modelled as `ℚ`; `JSON.stringify`/`JSON.parse` of the metadata
object round-trips and is modelled as the identity on `TransferMeta`.
The receiver's `dc.onmessage` handler is a state-transition function;
the sender is a trace-producing function whose environment supplies the
successive `bufferedAmount` readings observed by the backpressure loop.
-/

set_option maxRecDepth 8000

/-- `const CHUNK_SIZE = 64 * 1024` (webrtc.js line 149). -/
def CHUNK_SIZE : Nat := 64 * 1024

/-- The backpressure ceiling `CHUNK_SIZE * 8` (webrtc.js line 154): 512 KiB. -/
def HIGH_WATER : Nat := CHUNK_SIZE * 8

/-- The metadata object sent as the first, text frame
(`{ filename: file.name, size: file.size, type: file.type }`, lines 143-147)
and parsed by the receiver (line 112). -/
structure TransferMeta where
  filename : String
  size : Nat
  type : String
deriving DecidableEq

/-- A local file handed to `sendFileOverRTC`: its name, content bytes and
MIME type.  `file.size` of the File API is the byte length of the content. -/
structure FileData where
  name : String
  bytes : List Nat
  type : String
deriving DecidableEq

/-- `file.size` (byte length of the content). -/
def FileData.size (f : FileData) : Nat := f.bytes.length

/-- The metadata frame payload built from a file (lines 143-147). -/
def fileMeta (f : FileData) : TransferMeta := ⟨f.name, f.size, f.type⟩

/-- `new Blob(chunks, { type: meta.type })` (line 127): concatenated bytes
plus a MIME tag. -/
structure Blob where
  data : List Nat
  type : String
deriving DecidableEq

/-- A data-channel message: either a text (metadata) frame or a binary frame. -/
inductive Frame
| text (m : TransferMeta)
| binary (data : List Nat)
deriving DecidableEq

/-- The receiver state closed over by the `onmessage` handler of
`setupReceive` (lines 105-107): `let meta = null; let receivedBytes = 0;
const chunks = [];`. -/
structure RecvState where
  meta : Option TransferMeta
  receivedBytes : Nat
  chunks : List (List Nat)
deriving DecidableEq

/-- Initial receiver state (lines 105-107). -/
def initRecvState : RecvState := ⟨none, 0, []⟩

/-- Callback invocations the receiver performs: `onProgress(percent,
receivedBytes, meta.size)` (line 122) and `onFileReceived(meta, blob)`
(line 128). -/
inductive RecvEvent
| progress (percent : ℚ) (bytes : Nat) (total : Nat)
| fileReceived (m : TransferMeta) (content : Blob)
deriving DecidableEq

/-- The `dc.onmessage` handler installed by `setupReceive`
(webrtc.js lines 109-130), as a state-transition function returning the
new state and the callbacks invoked during the call.
Text frame: parse and store metadata, return (lines 111-115).
Binary frame: push the chunk, add its byteLength (lines 118-119); if
metadata is set report progress (lines 121-123); if metadata is set and
`receivedBytes === meta.size`, build the blob from all chunks and invoke
the completion callback (lines 126-129). -/
def onMessage (s : RecvState) : Frame → RecvState × List RecvEvent
| Frame.text m => ({ s with meta := some m }, [])
| Frame.binary data =>
    let receivedBytes := s.receivedBytes + data.length
    let chunks := s.chunks ++ [data]
    let progressEvents :=
      match s.meta with
      | some m =>
          [RecvEvent.progress (((receivedBytes : ℚ)) / ((m.size : ℚ)) * 100)
            receivedBytes m.size]
      | none => []
    let doneEvents :=
      match s.meta with
      | some m =>
          if receivedBytes = m.size then
            [RecvEvent.fileReceived m ⟨chunks.flatten, m.type⟩]
          else []
      | none => []
    (⟨s.meta, receivedBytes, chunks⟩, progressEvents ++ doneEvents)

/-- Run the receiver's message handler over a delivered frame sequence,
collecting the callback invocations in order. -/
def recvRun : RecvState → List Frame → RecvState × List RecvEvent
| s, [] => (s, [])
| s, f :: fs =>
    let step := onMessage s f
    let rest := recvRun step.1 fs
    (rest.1, step.2 ++ rest.2)

/-- The completion-callback invocations among a receiver event list. -/
def completions (evs : List RecvEvent) : List (TransferMeta × Blob) :=
  evs.filterMap fun e =>
    match e with
    | RecvEvent.fileReceived m b => some (m, b)
    | _ => none

/-- The absolute byte counts passed to successive receiver progress
callbacks. -/
def progressBytes (evs : List RecvEvent) : List Nat :=
  evs.filterMap fun e =>
    match e with
    | RecvEvent.progress _ b _ => some b
    | _ => none

/-- Observable actions of `sendFileOverRTC`: writing the text metadata
frame (line 143), reading `dc.bufferedAmount` (line 154), the 20 ms
backpressure sleep (line 155), writing a binary frame (line 160), and
the progress callback (line 164). -/
inductive SendEvent
| sendText (m : TransferMeta)
| poll (bufferedAmount : Nat)
| sleep (ms : Nat)
| sendBinary (data : List Nat)
| progress (percent : ℚ) (bytes : Nat)
deriving DecidableEq

/-- The backpressure loop `while (dc.bufferedAmount > CHUNK_SIZE * 8)
{ await ...setTimeout(r, 20)... }` (lines 154-156).  The environment
supplies the successive `bufferedAmount` readings; each reading above the
ceiling is followed by a 20 ms sleep and a re-poll.  Returns the events
and the unconsumed readings; `none` means the supplied readings were
exhausted while still above the ceiling (the loop has not exited within
the modelled prefix). -/
def waitLoop : List Nat → List SendEvent × Option (List Nat)
| [] => ([], none)
| a :: rest =>
    if HIGH_WATER < a then
      let w := waitLoop rest
      (SendEvent.poll a :: SendEvent.sleep 20 :: w.1, w.2)
    else
      ([SendEvent.poll a], some rest)

/-- The sender's chunk loop `while (offset < file.size) { ... }`
(webrtc.js lines 152-166): backpressure wait, then
`file.slice(offset, offset + CHUNK_SIZE)` sent as one binary frame,
then `offset += CHUNK_SIZE` and the progress callback
`setProgress((offset / file.size) * 100, offset)`. -/
def sendLoop (file : List Nat) (offset : Nat) (readings : List Nat) :
    List SendEvent :=
  if offset < file.length then
    match waitLoop readings with
    | (evs, none) => evs
    | (evs, some rest) =>
        evs ++ SendEvent.sendBinary ((file.drop offset).take CHUNK_SIZE) ::
          SendEvent.progress
            (((offset + CHUNK_SIZE : Nat) : ℚ) / ((file.length : Nat) : ℚ) * 100)
            (offset + CHUNK_SIZE) ::
          sendLoop file (offset + CHUNK_SIZE) rest
  else []
termination_by file.length - offset
decreasing_by simp only [CHUNK_SIZE]; omega

/-- `sendFileOverRTC(file, dc, setProgress)` (webrtc.js lines 137-169).
`dc` is the channel's `readyState` when the channel exists, `none` when
absent.  If `!dc || dc.readyState !== "open"` the call throws
`new Error("DataChannel is not open")` (lines 138-140) before anything is
written; otherwise the metadata frame is sent (lines 143-147) followed by
the chunk loop.  Returns the event trace and the raised error, if any. -/
def sendFileOverRTC (file : FileData) (dc : Option String)
    (readings : List Nat) : List SendEvent × Option String :=
  match dc with
  | none => ([], some "DataChannel is not open")
  | some readyState =>
      if readyState = "open" then
        (SendEvent.sendText (fileMeta file) :: sendLoop file.bytes 0 readings,
          none)
      else
        ([], some "DataChannel is not open")

/-- The frames written to the channel, extracted from a sender trace. -/
def sentFrames (evs : List SendEvent) : List Frame :=
  evs.filterMap fun e =>
    match e with
    | SendEvent.sendText m => some (Frame.text m)
    | SendEvent.sendBinary d => some (Frame.binary d)
    | _ => none

/-- The absolute byte counts passed to successive sender progress
callbacks, extracted from a sender trace. -/
def senderProgressBytes (evs : List SendEvent) : List Nat :=
  evs.filterMap fun e =>
    match e with
    | SendEvent.progress _ b => some b
    | _ => none

/-- The successive binary-frame payloads produced by the sender's slicing
loop (lines 149-162): `file.slice(offset, offset + CHUNK_SIZE)` for
`offset = 0, CHUNK_SIZE, 2 * CHUNK_SIZE, ...` while `offset < file.size`. -/
def sendChunks (file : List Nat) (offset : Nat) : List (List Nat) :=
  if offset < file.length then
    (file.drop offset).take CHUNK_SIZE :: sendChunks file (offset + CHUNK_SIZE)
  else []
termination_by file.length - offset
decreasing_by simp only [CHUNK_SIZE]; omega

/-- The frame sequence `sendFileOverRTC` writes, in send order: the one
text metadata frame (lines 143-147), then the binary chunk frames
(lines 152-162). -/
def senderFrames (file : FileData) : List Frame :=
  Frame.text (fileMeta file) :: (sendChunks file.bytes 0).map Frame.binary

/-- The successive `(percent, bytes)` arguments of the sender's progress
callback `setProgress((offset / file.size) * 100, offset)` after
`offset += CHUNK_SIZE` (lines 162-165). -/
def sendProgressCalls (size : Nat) (offset : Nat) : List (ℚ × Nat) :=
  if offset < size then
    (((offset + CHUNK_SIZE : Nat) : ℚ) / ((size : Nat) : ℚ) * 100,
      offset + CHUNK_SIZE) :: sendProgressCalls size (offset + CHUNK_SIZE)
  else []
termination_by size - offset
decreasing_by simp only [CHUNK_SIZE]; omega

/-- The length the last binary frame must have for a remaining byte
count `n`: `n mod CHUNK_SIZE` when that is nonzero, `CHUNK_SIZE`
otherwise. -/
def lastChunkLen (n : Nat) : Nat :=
  if n % CHUNK_SIZE = 0 then CHUNK_SIZE else n % CHUNK_SIZE

/-- Adjacency discipline of the sender trace: a binary-frame write is
issued only immediately after a buffered-amount poll whose reading did
not exceed the ceiling; a poll whose reading exceeded the ceiling is
immediately followed by the 20 ms sleep (and then, by construction of
the loop, a re-poll); a poll at or below the ceiling is immediately
followed by the binary write. -/
def sendStepOK (e₁ e₂ : SendEvent) : Prop :=
  (∀ d, e₂ = SendEvent.sendBinary d →
    ∃ a, e₁ = SendEvent.poll a ∧ a ≤ HIGH_WATER) ∧
  (∀ a, e₁ = SendEvent.poll a → HIGH_WATER < a → e₂ = SendEvent.sleep 20) ∧
  (∀ a, e₁ = SendEvent.poll a → a ≤ HIGH_WATER →
    ∃ d, e₂ = SendEvent.sendBinary d)

/-- Signaling-side inputs handled by `createWebRTCConnection`
(webrtc.js lines 48-95): the relayed `peer-joined` event, the three
`signal` payload kinds, and a locally discovered ICE candidate. -/
inductive SigEvent
| peerJoined
| offer
| answer
| ice
| localIce
deriving DecidableEq

/-- Actions `createWebRTCConnection` performs on the peer connection and
the signaling socket. -/
inductive NegotiationAct
| createDataChannel
| emitJoinRoom
| createOffer
| setLocalDescription
| setRemoteDescription
| createAnswer
| emitOffer
| emitAnswer
| emitIce
| addIceCandidate
deriving DecidableEq

/-- The synchronous actions performed when `createWebRTCConnection` is
called (session start): the sender eagerly creates the data channel
(line 19), both roles emit `join-room` (line 83).  No offer is created
or sent here. -/
def setupActs (isReceiver : Bool) : List NegotiationAct :=
  (if isReceiver then [] else [NegotiationAct.createDataChannel]) ++
    [NegotiationAct.emitJoinRoom]

/-- The handlers registered by `createWebRTCConnection`: `peer-joined`
(lines 86-95) makes the initiator create an offer, set it as local
description and send it — the responder does nothing; a received offer
(lines 60-68) is answered; a received answer (lines 70-72) is stored; a
received candidate (lines 74-76) is added; a locally discovered
candidate (lines 48-55) is relayed. -/
def handleEvent (isReceiver : Bool) : SigEvent → List NegotiationAct
| SigEvent.peerJoined =>
    if isReceiver then []
    else [NegotiationAct.createOffer, NegotiationAct.setLocalDescription,
      NegotiationAct.emitOffer]
| SigEvent.offer =>
    [NegotiationAct.setRemoteDescription, NegotiationAct.createAnswer,
      NegotiationAct.setLocalDescription, NegotiationAct.emitAnswer]
| SigEvent.answer => [NegotiationAct.setRemoteDescription]
| SigEvent.ice => [NegotiationAct.addIceCandidate]
| SigEvent.localIce => [NegotiationAct.emitIce]

/-- The action trace of one `createWebRTCConnection` session: the
synchronous setup actions followed by the handlers' responses to the
signaling events, in arrival order. -/
def createWebRTCConnection (isReceiver : Bool) (events : List SigEvent) :
    List NegotiationAct :=
  setupActs isReceiver ++ events.flatMap (handleEvent isReceiver)

/-! ### Lemmas about the receiver handler -/

theorem recvRun_nil (s : RecvState) : recvRun s [] = (s, []) := rfl

theorem recvRun_cons (s : RecvState) (f : Frame) (fs : List Frame) :
    recvRun s (f :: fs) =
      ((recvRun (onMessage s f).1 fs).1,
        (onMessage s f).2 ++ (recvRun (onMessage s f).1 fs).2) := rfl

theorem onMessage_receivedBytes_le (s : RecvState) (f : Frame) :
    s.receivedBytes ≤ (onMessage s f).1.receivedBytes := by
  cases f <;> simp [onMessage]

theorem recvRun_receivedBytes_le (frames : List Frame) (s : RecvState) :
    s.receivedBytes ≤ (recvRun s frames).1.receivedBytes := by
  induction frames generalizing s with
  | nil => simp [recvRun_nil]
  | cons f fs ih =>
      rw [recvRun_cons]
      exact le_trans (onMessage_receivedBytes_le s f) (ih (onMessage s f).1)

theorem onMessage_fileReceived (s : RecvState) (f : Frame) (m : TransferMeta)
    (b : Blob) (h : RecvEvent.fileReceived m b ∈ (onMessage s f).2) :
    ∃ data, f = Frame.binary data ∧ s.meta = some m ∧
      s.receivedBytes + data.length = m.size ∧
      b = ⟨(s.chunks ++ [data]).flatten, m.type⟩ := by
  cases f with
  | text m' => simp [onMessage] at h
  | binary data =>
      refine ⟨data, rfl, ?_⟩
      cases hm : s.meta with
      | none => simp [onMessage, hm] at h
      | some m' =>
          simp only [onMessage, hm, List.mem_append, List.mem_singleton] at h
          rcases h with h | h
          · exact absurd h (by simp)
          · split at h
            case isTrue heq =>
                have h2 := List.mem_singleton.mp h
                injection h2 with h3 h4
                subst h3
                exact ⟨rfl, heq, h4⟩
            case isFalse => simp at h

theorem recvRun_fileReceived_size (frames : List Frame) (s : RecvState)
    (m : TransferMeta) (b : Blob)
    (h : RecvEvent.fileReceived m b ∈ (recvRun s frames).2) :
    s.receivedBytes ≤ m.size := by
  induction frames generalizing s with
  | nil => simp [recvRun_nil] at h
  | cons f fs ih =>
      rw [recvRun_cons] at h
      simp only [List.mem_append] at h
      rcases h with h | h
      · obtain ⟨data, _, _, hsize, _⟩ := onMessage_fileReceived s f m b h
        omega
      · exact le_trans (onMessage_receivedBytes_le s f) (ih (onMessage s f).1 h)

theorem progressBytes_append (l₁ l₂ : List RecvEvent) :
    progressBytes (l₁ ++ l₂) = progressBytes l₁ ++ progressBytes l₂ :=
  List.filterMap_append l₁ l₂ _

theorem completions_append (l₁ l₂ : List RecvEvent) :
    completions (l₁ ++ l₂) = completions l₁ ++ completions l₂ :=
  List.filterMap_append l₁ l₂ _

theorem onMessage_progressBytes (s : RecvState) (f : Frame) :
    progressBytes (onMessage s f).2 = [] ∨
      progressBytes (onMessage s f).2 = [(onMessage s f).1.receivedBytes] := by
  cases f with
  | text m => left; simp [onMessage, progressBytes]
  | binary data =>
      cases hm : s.meta with
      | none => left; simp [onMessage, hm, progressBytes]
      | some m =>
          right
          simp only [onMessage, hm]
          split <;> simp [progressBytes]

theorem recvRun_progressBytes_mono (frames : List Frame) (s : RecvState) :
    List.Chain' (· ≤ ·) (progressBytes (recvRun s frames).2) ∧
      ∀ b ∈ progressBytes (recvRun s frames).2, s.receivedBytes ≤ b := by
  induction frames generalizing s with
  | nil => simp [recvRun_nil, progressBytes]
  | cons f fs ih =>
      rw [recvRun_cons]
      obtain ⟨ihchain, ihlb⟩ := ih (onMessage s f).1
      have hstep := onMessage_receivedBytes_le s f
      have hgoal : progressBytes ((onMessage s f).2 ++
          (recvRun (onMessage s f).1 fs).2) =
          progressBytes (onMessage s f).2 ++
            progressBytes (recvRun (onMessage s f).1 fs).2 :=
        progressBytes_append _ _
      rw [hgoal]
      rcases onMessage_progressBytes s f with hpb | hpb
      · rw [hpb, List.nil_append]
        exact ⟨ihchain, fun b hb => le_trans hstep (ihlb b hb)⟩
      · rw [hpb, List.singleton_append]
        refine ⟨List.chain'_cons'.mpr ⟨?_, ihchain⟩, ?_⟩
        · intro y hy
          exact ihlb y (List.mem_of_mem_head? hy)
        · intro b hb
          rcases List.mem_cons.mp hb with rfl | hb
          · exact hstep
          · exact le_trans hstep (ihlb b hb)

theorem recvRun_chunkStream (cs : List (List Nat)) (s : RecvState)
    (m : TransferMeta) (hm : s.meta = some m) (hne : ∀ c ∈ cs, c ≠ [])
    (hcs : cs ≠ [])
    (hsum : s.receivedBytes + (cs.map List.length).sum = m.size) :
    completions (recvRun s (cs.map Frame.binary)).2 =
      [(m, ⟨(s.chunks ++ cs).flatten, m.type⟩)] := by
  induction cs generalizing s with
  | nil => simp at hcs
  | cons c cs ih =>
      rw [List.map_cons, recvRun_cons, completions_append]
      cases cs with
      | nil =>
          rw [List.map_nil, recvRun_nil]
          simp only [List.map_cons, List.map_nil, List.sum_cons, List.sum_nil,
            Nat.add_zero] at hsum
          simp [onMessage, hm, completions, hsum]
      | cons c' cs' =>
          have hlt : s.receivedBytes + c.length < m.size := by
            have hc' : c'.length ≠ 0 := by
              have := hne c' (by simp)
              simpa [List.length_eq_zero] using this
            simp only [List.map_cons, List.sum_cons] at hsum
            omega
          have hstep : completions (onMessage s (Frame.binary c)).2 = [] := by
            simp only [onMessage, hm]
            rw [if_neg (by omega)]
            simp [completions]
          rw [hstep, List.nil_append]
          have := ih (onMessage s (Frame.binary c)).1
            (by simp [onMessage, hm]) (fun d hd => hne d (by simp [hd]))
            (by simp)
            (by simp only [onMessage]
                simp only [List.map_cons, List.sum_cons] at hsum ⊢
                omega)
          rw [this]
          simp [onMessage, List.flatten_append, List.flatten_cons]

/-! ### Lemmas about the sender's chunk partition -/

theorem CHUNK_SIZE_pos : 0 < CHUNK_SIZE := by simp [CHUNK_SIZE]

theorem sendChunks_flatten (file : List Nat) (offset : Nat) :
    (sendChunks file offset).flatten = file.drop offset := by
  rw [sendChunks]
  split
  case isTrue h =>
      rw [List.flatten_cons, sendChunks_flatten file (offset + CHUNK_SIZE),
        ← List.drop_drop, List.take_append_drop]
  case isFalse h =>
      rw [List.flatten_nil, Eq.comm, List.drop_eq_nil_iff]
      omega
termination_by file.length - offset
decreasing_by simp only [CHUNK_SIZE]; omega

theorem sendChunks_eq_nil (file : List Nat) (offset : Nat) :
    sendChunks file offset = [] ↔ file.length ≤ offset := by
  rw [sendChunks]
  split <;> simp_all

theorem sendChunks_length (file : List Nat) (offset : Nat) :
    (sendChunks file offset).length =
      (file.length - offset + CHUNK_SIZE - 1) / CHUNK_SIZE := by
  rw [sendChunks]
  split
  case isTrue h =>
      rw [List.length_cons, sendChunks_length file (offset + CHUNK_SIZE)]
      simp only [CHUNK_SIZE] at *
      omega
  case isFalse h =>
      rw [List.length_nil]
      simp only [CHUNK_SIZE] at *
      omega
termination_by file.length - offset
decreasing_by simp only [CHUNK_SIZE]; omega

theorem sendChunks_mem_ne_nil (file : List Nat) (offset : Nat) (c : List Nat)
    (hc : c ∈ sendChunks file offset) : c ≠ [] := by
  rw [sendChunks] at hc
  split at hc
  case isTrue h =>
      rcases List.mem_cons.mp hc with rfl | hmem
      · intro hnil
        rcases List.take_eq_nil_iff.mp hnil with h0 | hdrop
        · exact absurd h0 (Nat.pos_iff_ne_zero.mp CHUNK_SIZE_pos)
        · rw [List.drop_eq_nil_iff] at hdrop
          omega
      · exact sendChunks_mem_ne_nil file (offset + CHUNK_SIZE) c hmem
  case isFalse h => simp at hc
termination_by file.length - offset
decreasing_by simp only [CHUNK_SIZE]; omega

theorem sendChunks_dropLast (file : List Nat) (offset : Nat) :
    ∀ c ∈ (sendChunks file offset).dropLast, c.length = CHUNK_SIZE := by
  rw [sendChunks]
  split
  case isTrue h =>
      intro c hc
      cases hsc : sendChunks file (offset + CHUNK_SIZE) with
      | nil => rw [hsc] at hc; simp at hc
      | cons b bs =>
          rw [hsc, List.dropLast_cons₂] at hc
          have hlt : offset + CHUNK_SIZE < file.length := by
            by_contra hge
            have hnil : sendChunks file (offset + CHUNK_SIZE) = [] :=
              (sendChunks_eq_nil _ _).mpr (by omega)
            rw [hsc] at hnil
            simp at hnil
          rcases List.mem_cons.mp hc with rfl | hmem
          · rw [List.length_take, List.length_drop]
            simp only [CHUNK_SIZE] at *
            omega
          · have := sendChunks_dropLast file (offset + CHUNK_SIZE)
            rw [hsc] at this
            exact this c hmem
  case isFalse h => simp
termination_by file.length - offset
decreasing_by simp only [CHUNK_SIZE]; omega

theorem sendChunks_getLast (file : List Nat) (offset : Nat)
    (h : offset < file.length) :
    ∃ c, (sendChunks file offset).getLast? = some c ∧
      c.length = lastChunkLen (file.length - offset) := by
  rw [sendChunks, if_pos h]
  by_cases h2 : offset + CHUNK_SIZE < file.length
  · obtain ⟨c, hc, hlen⟩ := sendChunks_getLast file (offset + CHUNK_SIZE) h2
    refine ⟨c, ?_, ?_⟩
    · cases hsc : sendChunks file (offset + CHUNK_SIZE) with
      | nil =>
          rw [sendChunks_eq_nil] at hsc
          omega
      | cons b bs =>
          rw [List.getLast?_cons_cons, ← hsc, hc]
    · rw [hlen]
      have hmod : (file.length - (offset + CHUNK_SIZE)) % CHUNK_SIZE =
          (file.length - offset) % CHUNK_SIZE := by
        simp only [CHUNK_SIZE] at h2 ⊢
        omega
      rw [lastChunkLen, lastChunkLen, hmod]
  · have hnil : sendChunks file (offset + CHUNK_SIZE) = [] :=
      (sendChunks_eq_nil _ _).mpr (by omega)
    rw [hnil]
    refine ⟨(file.drop offset).take CHUNK_SIZE, rfl, ?_⟩
    rw [List.length_take, List.length_drop, lastChunkLen]
    simp only [CHUNK_SIZE] at h2 ⊢
    split <;> omega
termination_by file.length - offset
decreasing_by simp only [CHUNK_SIZE]; omega

/-! ### Lemmas about the sender trace -/

theorem sendStepOK_poll_sleep (a : Nat) (h : HIGH_WATER < a) :
    sendStepOK (SendEvent.poll a) (SendEvent.sleep 20) := by
  refine ⟨fun d hd => by simp at hd, fun b hb hgt => rfl, fun b hb hle => ?_⟩
  injection hb with hba
  omega

theorem sendStepOK_poll_write (a : Nat) (d : List Nat) (h : a ≤ HIGH_WATER) :
    sendStepOK (SendEvent.poll a) (SendEvent.sendBinary d) := by
  refine ⟨fun e he => ⟨a, rfl, h⟩, fun b hb hgt => ?_, fun b hb hle => ⟨d, rfl⟩⟩
  injection hb with hba
  omega

theorem sendStepOK_other (e₁ e₂ : SendEvent)
    (h1 : ∀ a, e₁ ≠ SendEvent.poll a) (h2 : ∀ d, e₂ ≠ SendEvent.sendBinary d) :
    sendStepOK e₁ e₂ := by
  refine ⟨fun d hd => absurd hd (h2 d), fun a ha => absurd ha (h1 a),
    fun a ha => absurd ha (h1 a)⟩

theorem waitLoop_head (readings : List Nat) (e : SendEvent)
    (h : (waitLoop readings).1.head? = some e) : ∃ a, e = SendEvent.poll a := by
  cases readings with
  | nil => simp [waitLoop] at h
  | cons a rest =>
      rw [waitLoop] at h
      split at h <;> simp_all <;> exact ⟨a, h.symm⟩

theorem waitLoop_last (readings rest : List Nat)
    (h : (waitLoop readings).2 = some rest) :
    ∃ a, (waitLoop readings).1.getLast? = some (SendEvent.poll a) ∧
      a ≤ HIGH_WATER := by
  induction readings generalizing rest with
  | nil => simp [waitLoop] at h
  | cons a rs ih =>
      by_cases hgt : HIGH_WATER < a
      · rw [waitLoop, if_pos hgt] at h ⊢
        dsimp only at h ⊢
        obtain ⟨b, hb, hble⟩ := ih rest h
        refine ⟨b, ?_, hble⟩
        cases hw : (waitLoop rs).1 with
        | nil => rw [hw] at hb; simp at hb
        | cons c cs =>
            rw [hw] at hb
            rw [List.getLast?_cons_cons, List.getLast?_cons_cons]
            exact hb
      · rw [waitLoop, if_neg hgt] at h ⊢
        exact ⟨a, rfl, by omega⟩

theorem waitLoop_chain (readings : List Nat) :
    List.Chain' sendStepOK (waitLoop readings).1 := by
  induction readings with
  | nil => simp [waitLoop]
  | cons a rest ih =>
      by_cases hgt : HIGH_WATER < a
      · rw [waitLoop, if_pos hgt]
        refine List.chain'_cons'.mpr ⟨?_, List.chain'_cons'.mpr ⟨?_, ih⟩⟩
        · intro y hy
          have hy2 : SendEvent.sleep 20 = y := by simpa using hy
          subst hy2
          exact sendStepOK_poll_sleep a hgt
        · intro y hy
          obtain ⟨b, hb⟩ := waitLoop_head rest y hy
          subst hb
          exact sendStepOK_other _ _ (fun c hc => by simp at hc)
            (fun d hd => by simp at hd)
      · rw [waitLoop, if_neg hgt]
        simp

theorem waitLoop_sentFrames (readings : List Nat) :
    sentFrames (waitLoop readings).1 = [] := by
  induction readings with
  | nil => simp [waitLoop, sentFrames]
  | cons a rest ih =>
      by_cases hgt : HIGH_WATER < a
      · rw [waitLoop, if_pos hgt]
        simpa [sentFrames] using ih
      · rw [waitLoop, if_neg hgt]
        simp [sentFrames]

theorem waitLoop_progressBytes (readings : List Nat) :
    senderProgressBytes (waitLoop readings).1 = [] := by
  induction readings with
  | nil => simp [waitLoop, senderProgressBytes]
  | cons a rest ih =>
      by_cases hgt : HIGH_WATER < a
      · rw [waitLoop, if_pos hgt]
        simpa [senderProgressBytes] using ih
      · rw [waitLoop, if_neg hgt]
        simp [senderProgressBytes]

theorem waitLoop_ne_nil (readings rest : List Nat)
    (h : (waitLoop readings).2 = some rest) : (waitLoop readings).1 ≠ [] := by
  obtain ⟨a, hl, _⟩ := waitLoop_last readings rest h
  intro hnil
  rw [hnil] at hl
  simp at hl

theorem sendLoop_head (file : List Nat) (offset : Nat) (readings : List Nat)
    (e : SendEvent) (h : (sendLoop file offset readings).head? = some e) :
    ∃ a, e = SendEvent.poll a := by
  rw [sendLoop] at h
  split at h
  case isTrue hlt =>
      cases hw : waitLoop readings with
      | mk evs r =>
          rw [hw] at h
          cases r with
          | none =>
              refine waitLoop_head readings e ?_
              rw [hw]
              exact h
          | some rest =>
              dsimp only at h
              have hne : evs ≠ [] := by
                have := waitLoop_ne_nil readings rest (by rw [hw])
                rw [hw] at this
                exact this
              rw [List.head?_append_of_ne_nil evs hne] at h
              refine waitLoop_head readings e ?_
              rw [hw]
              exact h
  case isFalse hlt => simp at h

theorem sendLoop_chain (file : List Nat) (offset : Nat) (readings : List Nat) :
    List.Chain' sendStepOK (sendLoop file offset readings) := by
  rw [sendLoop]
  split
  case isTrue h =>
      cases hw : waitLoop readings with
      | mk evs r =>
          have hchain : List.Chain' sendStepOK evs := by
            have := waitLoop_chain readings
            rw [hw] at this
            exact this
          cases r with
          | none => exact hchain
          | some rest =>
              dsimp only
              rw [List.chain'_append]
              refine ⟨hchain, ?_, ?_⟩
              · refine List.chain'_cons'.mpr ⟨?_, List.chain'_cons'.mpr
                  ⟨?_, sendLoop_chain file (offset + CHUNK_SIZE) rest⟩⟩
                · intro y hy
                  have hy2 : SendEvent.progress
                      (((offset + CHUNK_SIZE : Nat) : ℚ) /
                        ((file.length : Nat) : ℚ) * 100) (offset + CHUNK_SIZE) =
                      y := by simpa using hy
                  subst hy2
                  exact sendStepOK_other _ _ (fun c hc => by simp at hc)
                    (fun d hd => by simp at hd)
                · intro y hy
                  obtain ⟨b, hb⟩ := sendLoop_head file (offset + CHUNK_SIZE) rest y hy
                  subst hb
                  exact sendStepOK_other _ _ (fun c hc => by simp at hc)
                    (fun d hd => by simp at hd)
              · intro x hx y hy
                have hlast := waitLoop_last readings rest (by rw [hw])
                obtain ⟨a, hl, hle⟩ := hlast
                rw [hw] at hl
                have hx2 : x = SendEvent.poll a := by
                  rw [hl] at hx
                  simpa using hx.symm
                have hy2 : SendEvent.sendBinary ((file.drop offset).take CHUNK_SIZE)
                    = y := by simpa using hy
                subst hx2
                subst hy2
                exact sendStepOK_poll_write a _ hle
  case isFalse h => simp
termination_by file.length - offset
decreasing_by simp only [CHUNK_SIZE]; omega

theorem sentFrames_append (l₁ l₂ : List SendEvent) :
    sentFrames (l₁ ++ l₂) = sentFrames l₁ ++ sentFrames l₂ :=
  List.filterMap_append l₁ l₂ _

theorem senderProgressBytes_append (l₁ l₂ : List SendEvent) :
    senderProgressBytes (l₁ ++ l₂) =
      senderProgressBytes l₁ ++ senderProgressBytes l₂ :=
  List.filterMap_append l₁ l₂ _

theorem sentFrames_cons_poll (a : Nat) (l : List SendEvent) :
    sentFrames (SendEvent.poll a :: l) = sentFrames l := rfl

theorem sentFrames_cons_sleep (ms : Nat) (l : List SendEvent) :
    sentFrames (SendEvent.sleep ms :: l) = sentFrames l := rfl

theorem sentFrames_cons_progress (q : ℚ) (b : Nat) (l : List SendEvent) :
    sentFrames (SendEvent.progress q b :: l) = sentFrames l := rfl

theorem sentFrames_cons_text (m : TransferMeta) (l : List SendEvent) :
    sentFrames (SendEvent.sendText m :: l) = Frame.text m :: sentFrames l := rfl

theorem sentFrames_cons_binary (d : List Nat) (l : List SendEvent) :
    sentFrames (SendEvent.sendBinary d :: l) =
      Frame.binary d :: sentFrames l := rfl

theorem sendLoop_frames (file : List Nat) (offset : Nat) (readings : List Nat)
    (hall : ∀ a ∈ readings, a ≤ HIGH_WATER)
    (hcount : (file.length - offset + CHUNK_SIZE - 1) / CHUNK_SIZE ≤
      readings.length) :
    sentFrames (sendLoop file offset readings) =
      (sendChunks file offset).map Frame.binary := by
  rw [sendLoop, sendChunks]
  split
  case isTrue h =>
      cases readings with
      | nil =>
          exfalso
          simp only [List.length_nil, Nat.le_zero] at hcount
          simp only [CHUNK_SIZE] at hcount
          omega
      | cons a rs =>
          have hwl : waitLoop (a :: rs) = ([SendEvent.poll a], some rs) := by
            rw [waitLoop, if_neg (not_lt.mpr (hall a (by simp)))]
          rw [hwl]
          dsimp only
          rw [List.singleton_append, List.map_cons]
          have hrec := sendLoop_frames file (offset + CHUNK_SIZE) rs
            (fun b hb => hall b (by simp [hb]))
            (by simp only [List.length_cons] at hcount
                simp only [CHUNK_SIZE] at hcount ⊢
                omega)
          rw [sentFrames_cons_poll, sentFrames_cons_binary,
            sentFrames_cons_progress, hrec]
  case isFalse h => simp [sentFrames]
termination_by file.length - offset
decreasing_by simp only [CHUNK_SIZE]; omega

theorem sendLoop_progress_mono (file : List Nat) (offset : Nat)
    (readings : List Nat) :
    List.Chain' (· ≤ ·) (senderProgressBytes (sendLoop file offset readings)) ∧
      ∀ b ∈ senderProgressBytes (sendLoop file offset readings), offset ≤ b := by
  rw [sendLoop]
  split
  case isTrue h =>
      cases hw : waitLoop readings with
      | mk evs r =>
          have hevs : senderProgressBytes evs = [] := by
            have := waitLoop_progressBytes readings
            rw [hw] at this
            exact this
          cases r with
          | none =>
              rw [hevs]
              simp
          | some rest =>
              dsimp only
              rw [senderProgressBytes_append, hevs, List.nil_append]
              have hrec := sendLoop_progress_mono file (offset + CHUNK_SIZE) rest
              have hsplit : senderProgressBytes
                  (SendEvent.sendBinary ((file.drop offset).take CHUNK_SIZE) ::
                    SendEvent.progress
                      (((offset + CHUNK_SIZE : Nat) : ℚ) /
                        ((file.length : Nat) : ℚ) * 100)
                      (offset + CHUNK_SIZE) ::
                    sendLoop file (offset + CHUNK_SIZE) rest) =
                  (offset + CHUNK_SIZE) ::
                    senderProgressBytes (sendLoop file (offset + CHUNK_SIZE) rest) := by
                simp [senderProgressBytes, List.filterMap_cons]
              rw [hsplit]
              refine ⟨List.chain'_cons'.mpr ⟨?_, hrec.1⟩, ?_⟩
              · intro y hy
                have := hrec.2 y (List.mem_of_mem_head? hy)
                omega
              · intro b hb
                rcases List.mem_cons.mp hb with rfl | hb
                · omega
                · have := hrec.2 b hb
                  omega
  case isFalse h => simp [senderProgressBytes]
termination_by file.length - offset
decreasing_by simp only [CHUNK_SIZE]; omega

/-! ### Lemmas about the sender progress calls -/

theorem sendProgressCalls_eq_nil (size offset : Nat) :
    sendProgressCalls size offset = [] ↔ size ≤ offset := by
  rw [sendProgressCalls]
  split <;> simp_all

theorem sendProgressCalls_getLast (size offset : Nat) (h : offset < size) :
    (sendProgressCalls size offset).getLast? =
      some ((((offset + CHUNK_SIZE *
            ((size - offset + CHUNK_SIZE - 1) / CHUNK_SIZE) : Nat)) : ℚ) /
          ((size : Nat) : ℚ) * 100,
        offset + CHUNK_SIZE * ((size - offset + CHUNK_SIZE - 1) / CHUNK_SIZE)) := by
  rw [sendProgressCalls, if_pos h]
  by_cases h2 : offset + CHUNK_SIZE < size
  · have hrec := sendProgressCalls_getLast size (offset + CHUNK_SIZE) h2
    have harith : offset + CHUNK_SIZE *
        ((size - offset + CHUNK_SIZE - 1) / CHUNK_SIZE) =
        (offset + CHUNK_SIZE) + CHUNK_SIZE *
          ((size - (offset + CHUNK_SIZE) + CHUNK_SIZE - 1) / CHUNK_SIZE) := by
      simp only [CHUNK_SIZE] at h2 ⊢
      omega
    cases hsc : sendProgressCalls size (offset + CHUNK_SIZE) with
    | nil =>
        rw [sendProgressCalls_eq_nil] at hsc
        omega
    | cons p ps =>
        rw [List.getLast?_cons_cons, ← hsc, hrec, harith]
  · have hnil : sendProgressCalls size (offset + CHUNK_SIZE) = [] :=
      (sendProgressCalls_eq_nil _ _).mpr (by omega)
    rw [hnil]
    have harith : offset + CHUNK_SIZE *
        ((size - offset + CHUNK_SIZE - 1) / CHUNK_SIZE) = offset + CHUNK_SIZE := by
      simp only [CHUNK_SIZE] at h h2 ⊢
      omega
    rw [harith]
    rfl
termination_by size - offset
decreasing_by simp only [CHUNK_SIZE]; omega

theorem sendProgressCalls_mem (size offset : Nat) (hdvd : CHUNK_SIZE ∣ offset) :
    ∀ p ∈ sendProgressCalls size offset, ∃ k, 0 < k ∧
      p = ((((k * CHUNK_SIZE : Nat)) : ℚ) / ((size : Nat) : ℚ) * 100,
        k * CHUNK_SIZE) := by
  rw [sendProgressCalls]
  split
  case isTrue h =>
      intro p hp
      rcases List.mem_cons.mp hp with rfl | hp
      · obtain ⟨j, hj⟩ := hdvd
        refine ⟨j + 1, by omega, ?_⟩
        have hoff : offset + CHUNK_SIZE = (j + 1) * CHUNK_SIZE := by
          subst hj
          ring
        rw [hoff]
      · refine sendProgressCalls_mem size (offset + CHUNK_SIZE) ?_ p hp
        exact Dvd.dvd.add hdvd (dvd_refl CHUNK_SIZE)
  case isFalse h => simp
termination_by size - offset
decreasing_by simp only [CHUNK_SIZE]; omega

theorem sendProgressCalls_length (size offset : Nat) :
    (sendProgressCalls size offset).length =
      (size - offset + CHUNK_SIZE - 1) / CHUNK_SIZE := by
  rw [sendProgressCalls]
  split
  case isTrue h =>
      rw [List.length_cons, sendProgressCalls_length size (offset + CHUNK_SIZE)]
      simp only [CHUNK_SIZE] at h ⊢
      omega
  case isFalse h =>
      rw [List.length_nil]
      simp only [CHUNK_SIZE] at h ⊢
      omega
termination_by size - offset
decreasing_by simp only [CHUNK_SIZE]; omega

/-! ### Claim C1: round-trip completion correctness -/

/-- C1 (amended: restricted to files of positive size): for every file of
size `S > 0` whose frames produced by `sendFileOverRTC` are delivered in
send order to the receiver's message handler, the receiver invokes the
completion callback exactly once, with the sent metadata and a content
blob whose bytes equal the original file's bytes exactly and whose byte
length equals the declared metadata size `S`. -/
theorem claim1_roundtrip (file : FileData) (h : 0 < file.bytes.length) :
    completions (recvRun initRecvState (senderFrames file)).2 =
      [(fileMeta file, Blob.mk file.bytes file.type)] ∧
    (Blob.mk file.bytes file.type).data.length = (fileMeta file).size := by
  constructor
  · rw [senderFrames, recvRun_cons]
    have hstep : onMessage initRecvState (Frame.text (fileMeta file)) =
        (⟨some (fileMeta file), 0, []⟩, []) := rfl
    rw [hstep]
    dsimp only
    rw [List.nil_append]
    have hsum : (RecvState.mk (some (fileMeta file)) 0 []).receivedBytes +
        ((sendChunks file.bytes 0).map List.length).sum =
        (fileMeta file).size := by
      show 0 + ((sendChunks file.bytes 0).map List.length).sum =
        (fileMeta file).size
      rw [Nat.zero_add, ← List.length_flatten, sendChunks_flatten,
        List.drop_zero]
      rfl
    have hrun := recvRun_chunkStream (sendChunks file.bytes 0)
      ⟨some (fileMeta file), 0, []⟩ (fileMeta file) rfl
      (fun c hc => sendChunks_mem_ne_nil file.bytes 0 c hc)
      (by intro hnil
          rw [sendChunks_eq_nil] at hnil
          omega)
      hsum
    rw [hrun]
    rw [List.nil_append, sendChunks_flatten, List.drop_zero]
    rfl
  · rfl

/-- C1 witness: a concrete 3-byte file round-trips. -/
theorem claim1_roundtrip_witness :
    0 < (FileData.mk "a" [1, 2, 3] "text/plain").bytes.length ∧
      (completions (recvRun initRecvState
          (senderFrames (FileData.mk "a" [1, 2, 3] "text/plain"))).2 =
        [(fileMeta (FileData.mk "a" [1, 2, 3] "text/plain"),
          Blob.mk (FileData.mk "a" [1, 2, 3] "text/plain").bytes
            (FileData.mk "a" [1, 2, 3] "text/plain").type)] ∧
      (Blob.mk (FileData.mk "a" [1, 2, 3] "text/plain").bytes
          (FileData.mk "a" [1, 2, 3] "text/plain").type).data.length =
        (fileMeta (FileData.mk "a" [1, 2, 3] "text/plain")).size) :=
  ⟨by decide,
    claim1_roundtrip (FileData.mk "a" [1, 2, 3] "text/plain") (by decide)⟩

/-- C1 counterexample: for a zero-byte file, after all sender frames are
delivered, `receivedBytes` equals the declared size (both are `0`), yet
the completion callback is never invoked: the claim fails at `S = 0`. -/
theorem claim1_counterexample :
    (recvRun initRecvState
        (senderFrames (FileData.mk "empty" [] "text/plain"))).1.receivedBytes =
      (fileMeta (FileData.mk "empty" [] "text/plain")).size ∧
    completions (recvRun initRecvState
        (senderFrames (FileData.mk "empty" [] "text/plain"))).2 = [] := by
  have hchunks : sendChunks
      (FileData.mk "empty" [] "text/plain").bytes 0 = [] :=
    (sendChunks_eq_nil _ _).mpr (by simp)
  rw [senderFrames, hchunks, List.map_nil]
  exact ⟨rfl, rfl⟩

/-! ### Claim C2: metadata-first counting -/

/-- C2 counterexample: deliver a 1-byte binary frame, then metadata
declaring size 2, then another 1-byte binary frame.  The pre-metadata
byte is counted: `receivedBytes` reaches 2 and the completion callback
fires with both fragments, although only one byte arrived after the
metadata — so pre-metadata binary bytes do contribute to the completion
condition, refuting the claim. -/
theorem claim2_counterexample :
    (recvRun initRecvState
      [Frame.binary [7], Frame.text (TransferMeta.mk "f" 2 "t"),
        Frame.binary [8]]).1.receivedBytes = 2 ∧
    completions (recvRun initRecvState
      [Frame.binary [7], Frame.text (TransferMeta.mk "f" 2 "t"),
        Frame.binary [8]]).2 =
      [(TransferMeta.mk "f" 2 "t", Blob.mk [7, 8] "t")] :=
  ⟨rfl, rfl⟩

/-- C2 (amended): a binary frame that arrives before metadata has been
observed invokes no progress or completion callback, but its bytes ARE
appended to the fragment list and added to `receivedBytes`, and therefore
do count toward satisfying the completion condition
`receivedBytes == metadata.size` later. -/
theorem claim2_pre_metadata (s : RecvState) (data : List Nat)
    (h : s.meta = none) :
    (onMessage s (Frame.binary data)).2 = [] ∧
    (onMessage s (Frame.binary data)).1.receivedBytes =
      s.receivedBytes + data.length ∧
    (onMessage s (Frame.binary data)).1.chunks = s.chunks ++ [data] ∧
    (onMessage s (Frame.binary data)).1.meta = none := by
  simp [onMessage, h]

/-- C2 witness: the amended claim at the initial state with a 1-byte
frame. -/
theorem claim2_pre_metadata_witness :
    initRecvState.meta = none ∧
      ((onMessage initRecvState (Frame.binary [5])).2 = [] ∧
       (onMessage initRecvState (Frame.binary [5])).1.receivedBytes =
         initRecvState.receivedBytes + [5].length ∧
       (onMessage initRecvState (Frame.binary [5])).1.chunks =
         initRecvState.chunks ++ [[5]] ∧
       (onMessage initRecvState (Frame.binary [5])).1.meta = none) :=
  ⟨rfl, claim2_pre_metadata initRecvState [5] rfl⟩

/-! ### Claim C3: chunk partition and frame order -/

/-- C3: for every file of size `S > 0` (with buffered-amount readings
that let every backpressure wait exit, one reading per chunk sufficing),
`sendFileOverRTC` writes exactly one text metadata frame before any
binary frame, followed by exactly `ceil(S / CHUNK_SIZE)` binary frames
that partition the file in order; every frame but the last has length
`CHUNK_SIZE`, and the last has length `S mod CHUNK_SIZE` if that is
nonzero and `CHUNK_SIZE` otherwise. -/
theorem claim3_chunk_partition (file : FileData) (readings : List Nat)
    (h : 0 < file.bytes.length)
    (hall : ∀ a ∈ readings, a ≤ HIGH_WATER)
    (hcount : (file.bytes.length + CHUNK_SIZE - 1) / CHUNK_SIZE ≤
      readings.length) :
    sentFrames (sendFileOverRTC file (some "open") readings).1 =
      Frame.text (fileMeta file) ::
        (sendChunks file.bytes 0).map Frame.binary ∧
    (sendChunks file.bytes 0).length =
      (file.bytes.length + CHUNK_SIZE - 1) / CHUNK_SIZE ∧
    (sendChunks file.bytes 0).flatten = file.bytes ∧
    (∀ c ∈ (sendChunks file.bytes 0).dropLast, c.length = CHUNK_SIZE) ∧
    (∃ c, (sendChunks file.bytes 0).getLast? = some c ∧
      c.length = (if file.bytes.length % CHUNK_SIZE = 0 then CHUNK_SIZE
                  else file.bytes.length % CHUNK_SIZE)) := by
  refine ⟨?_, ?_, ?_, sendChunks_dropLast file.bytes 0, ?_⟩
  · show sentFrames (SendEvent.sendText (fileMeta file) ::
      sendLoop file.bytes 0 readings) = _
    rw [sentFrames_cons_text,
      sendLoop_frames file.bytes 0 readings hall
        (by rw [Nat.sub_zero]; exact hcount)]
  · rw [sendChunks_length, Nat.sub_zero]
  · rw [sendChunks_flatten, List.drop_zero]
  · obtain ⟨c, hc, hlen⟩ := sendChunks_getLast file.bytes 0 h
    refine ⟨c, hc, ?_⟩
    rw [hlen, lastChunkLen, Nat.sub_zero]

/-- C3 witness: a 3-byte file with one low buffered-amount reading. -/
theorem claim3_chunk_partition_witness :
    (0 < (FileData.mk "a" [1, 2, 3] "t").bytes.length ∧
      (∀ a ∈ [0], a ≤ HIGH_WATER) ∧
      ((FileData.mk "a" [1, 2, 3] "t").bytes.length + CHUNK_SIZE - 1) /
        CHUNK_SIZE ≤ [0].length) ∧
    sentFrames (sendFileOverRTC (FileData.mk "a" [1, 2, 3] "t")
        (some "open") [0]).1 =
      Frame.text (fileMeta (FileData.mk "a" [1, 2, 3] "t")) ::
        (sendChunks (FileData.mk "a" [1, 2, 3] "t").bytes 0).map
          Frame.binary := by
  refine ⟨⟨by decide, by decide, by decide⟩, ?_⟩
  exact (claim3_chunk_partition (FileData.mk "a" [1, 2, 3] "t") [0]
    (by decide) (by decide) (by decide)).1

/-! ### Claim C4: zero-byte transfer -/

/-- C4 counterexample: for the zero-byte file the sender emits only the
metadata frame, and upon receiving it the receiver records the metadata
(declared size 0) but invokes no callback at all — in particular not the
completion callback, contradicting the claim that completion is invoked
immediately upon metadata receipt. -/
theorem claim4_counterexample :
    senderFrames (FileData.mk "empty" [] "text/plain") =
      [Frame.text (TransferMeta.mk "empty" 0 "text/plain")] ∧
    (recvRun initRecvState
        [Frame.text (TransferMeta.mk "empty" 0 "text/plain")]).1.meta =
      some (TransferMeta.mk "empty" 0 "text/plain") ∧
    (recvRun initRecvState
        [Frame.text (TransferMeta.mk "empty" 0 "text/plain")]).2 = [] := by
  refine ⟨?_, rfl, rfl⟩
  rw [senderFrames,
    (sendChunks_eq_nil (FileData.mk "empty" [] "text/plain").bytes 0).mpr
      (by simp),
    List.map_nil]
  rfl

/-- C4 (amended): for a zero-size file the sender emits only the metadata
frame (no binary frames, no backpressure polls), and the receiver, upon
processing the sender's frames, records the metadata but never invokes
the completion callback: completion is only checked at binary-frame
arrivals, so a zero-byte transfer never completes. -/
theorem claim4_zero_byte (file : FileData) (readings : List Nat)
    (h : file.bytes.length = 0) :
    (sendFileOverRTC file (some "open") readings).1 =
      [SendEvent.sendText (fileMeta file)] ∧
    senderFrames file = [Frame.text (fileMeta file)] ∧
    (recvRun initRecvState (senderFrames file)).1.meta =
      some (fileMeta file) ∧
    completions (recvRun initRecvState (senderFrames file)).2 = [] := by
  have hchunks : sendChunks file.bytes 0 = [] :=
    (sendChunks_eq_nil _ _).mpr (by omega)
  have hloop : sendLoop file.bytes 0 readings = [] := by
    rw [sendLoop, if_neg (by omega)]
  refine ⟨?_, ?_, ?_, ?_⟩
  · show SendEvent.sendText (fileMeta file) ::
      sendLoop file.bytes 0 readings = _
    rw [hloop]
  · rw [senderFrames, hchunks, List.map_nil]
  · rw [senderFrames, hchunks, List.map_nil]
    rfl
  · rw [senderFrames, hchunks, List.map_nil]
    rfl

/-- C4 witness: the amended claim at a concrete empty file. -/
theorem claim4_zero_byte_witness :
    (FileData.mk "e" [] "t").bytes.length = 0 ∧
      ((sendFileOverRTC (FileData.mk "e" [] "t") (some "open") []).1 =
        [SendEvent.sendText (fileMeta (FileData.mk "e" [] "t"))] ∧
      senderFrames (FileData.mk "e" [] "t") =
        [Frame.text (fileMeta (FileData.mk "e" [] "t"))] ∧
      (recvRun initRecvState (senderFrames (FileData.mk "e" [] "t"))).1.meta =
        some (fileMeta (FileData.mk "e" [] "t")) ∧
      completions (recvRun initRecvState
        (senderFrames (FileData.mk "e" [] "t"))).2 = []) :=
  ⟨rfl, claim4_zero_byte (FileData.mk "e" [] "t") [] rfl⟩

/-! ### Claim C5: backpressure bound -/

/-- C5: in every trace of `sendFileOverRTC` (over any channel state and
any sequence of buffered-amount readings), a binary-frame write occurs
only immediately after a poll whose buffered-amount reading did not
exceed the 512 KiB ceiling (so no write is issued while the buffered
count exceeds the ceiling), every poll that read a value above the
ceiling is immediately followed by the fixed 20 ms sleep and a re-poll,
and a poll at or below the ceiling is immediately followed by the write;
no write can be the first event. -/
theorem claim5_backpressure (file : FileData) (dc : Option String)
    (readings : List Nat) :
    List.Chain' sendStepOK (sendFileOverRTC file dc readings).1 ∧
    ∀ d, (sendFileOverRTC file dc readings).1.head? ≠
      some (SendEvent.sendBinary d) := by
  cases dc with
  | none => exact ⟨by simp [sendFileOverRTC], by simp [sendFileOverRTC]⟩
  | some rs =>
      by_cases hrs : rs = "open"
      · subst hrs
        constructor
        · show List.Chain' sendStepOK (SendEvent.sendText (fileMeta file) ::
            sendLoop file.bytes 0 readings)
          refine List.chain'_cons'.mpr
            ⟨?_, sendLoop_chain file.bytes 0 readings⟩
          intro y hy
          obtain ⟨a, ha⟩ := sendLoop_head file.bytes 0 readings y hy
          subst ha
          exact sendStepOK_other _ _ (fun c hc => by simp at hc)
            (fun d hd => by simp at hd)
        · intro d
          show (SendEvent.sendText (fileMeta file) ::
            sendLoop file.bytes 0 readings).head? ≠ _
          simp
      · have hdef : sendFileOverRTC file (some rs) readings =
            ([], some "DataChannel is not open") := by
          simp only [sendFileOverRTC]
          rw [if_neg hrs]
        rw [hdef]
        exact ⟨by simp, by simp⟩

/-! ### Claim C6: channel-not-ready error -/

/-- C6: `sendFileOverRTC` raises the `DataChannel is not open` error if
and only if the channel is absent or its `readyState` is not `"open"`,
and when the error is raised no event (in particular no frame write)
has occurred. -/
theorem claim6_channel_not_ready (file : FileData) (dc : Option String)
    (readings : List Nat) :
    ((sendFileOverRTC file dc readings).2 = some "DataChannel is not open" ↔
      (dc = none ∨ ∃ s, dc = some s ∧ s ≠ "open")) ∧
    ((sendFileOverRTC file dc readings).2 ≠ none →
      (sendFileOverRTC file dc readings).1 = []) := by
  cases dc with
  | none => exact ⟨by simp [sendFileOverRTC], fun _ => rfl⟩
  | some rs =>
      by_cases hrs : rs = "open"
      · subst hrs
        constructor
        · constructor
          · intro h
            exact absurd h (by simp [sendFileOverRTC])
          · rintro (h | ⟨s, hs, hne⟩)
            · exact absurd h (by simp)
            · injection hs with hs'
              exact absurd hs'.symm hne
        · intro h
          exact absurd (by simp [sendFileOverRTC] : (sendFileOverRTC file
            (some "open") readings).2 = none) h
      · have hdef : sendFileOverRTC file (some rs) readings =
            ([], some "DataChannel is not open") := by
          simp only [sendFileOverRTC]
          rw [if_neg hrs]
        rw [hdef]
        constructor
        · simp only [Option.some.injEq, true_iff]
          right
          exact ⟨rs, rfl, hrs⟩
        · intro
          rfl

/-- C6 witness: with an absent channel the call errors and writes no
event. -/
theorem claim6_channel_not_ready_witness :
    (sendFileOverRTC (FileData.mk "a" [1] "t") none []).1 = [] :=
  (claim6_channel_not_ready (FileData.mk "a" [1] "t") none []).2 (by decide)

/-! ### Claim C7: sender progress reporting -/

/-- C7 counterexample: for a 1-byte file the single progress call reports
`(65536 / 1) * 100 = 6553600` percent and `65536` bytes — not 100 percent
and not the file size 1 — because `offset` is advanced by the full chunk
size before being reported. -/
theorem claim7_counterexample :
    (sendFileOverRTC (FileData.mk "a" [9] "t") (some "open") [0]).1 =
      [SendEvent.sendText (TransferMeta.mk "a" 1 "t"), SendEvent.poll 0,
        SendEvent.sendBinary [9], SendEvent.progress 6553600 65536] ∧
    (6553600 : ℚ) ≠ 100 ∧ (65536 : Nat) ≠ 1 := by
  refine ⟨?_, by norm_num, by norm_num⟩
  show SendEvent.sendText (fileMeta (FileData.mk "a" [9] "t")) ::
    sendLoop [9] 0 [0] = _
  have hw : waitLoop [0] = ([SendEvent.poll 0], some []) := by
    rw [waitLoop, if_neg (by simp [HIGH_WATER, CHUNK_SIZE])]
  have h2 : sendLoop [9] (0 + CHUNK_SIZE) [] = [] := by
    rw [sendLoop, if_neg (by simp [CHUNK_SIZE])]
  have h1 : sendLoop [9] 0 [0] =
      [SendEvent.poll 0, SendEvent.sendBinary [9],
        SendEvent.progress 6553600 65536] := by
    rw [sendLoop, if_pos (by norm_num), hw]
    dsimp only
    rw [h2, List.singleton_append]
    norm_num [CHUNK_SIZE]
  rw [h1]
  rfl

/-- C7 (amended): after each binary frame the sender reports
`(offset / S) * 100` percent and `offset` bytes where `offset` has been
advanced by the full `CHUNK_SIZE` (so each reported byte count is a
positive multiple of `CHUNK_SIZE`); there are `ceil(S / CHUNK_SIZE)`
calls, the final call reports `CHUNK_SIZE * ceil(S / CHUNK_SIZE)` bytes
with the corresponding percentage, and these equal exactly `S` bytes
(hence exactly 100 percent) if and only if `CHUNK_SIZE` divides `S`. -/
theorem claim7_progress (file : FileData) (h : 0 < file.bytes.length) :
    (∀ p ∈ sendProgressCalls file.bytes.length 0, ∃ k, 0 < k ∧
      p = ((((k * CHUNK_SIZE : Nat)) : ℚ) /
          ((file.bytes.length : Nat) : ℚ) * 100, k * CHUNK_SIZE)) ∧
    (sendProgressCalls file.bytes.length 0).length =
      (file.bytes.length + CHUNK_SIZE - 1) / CHUNK_SIZE ∧
    (sendProgressCalls file.bytes.length 0).getLast? =
      some ((((CHUNK_SIZE *
            ((file.bytes.length + CHUNK_SIZE - 1) / CHUNK_SIZE) : Nat)) : ℚ) /
          ((file.bytes.length : Nat) : ℚ) * 100,
        CHUNK_SIZE * ((file.bytes.length + CHUNK_SIZE - 1) / CHUNK_SIZE)) ∧
    (CHUNK_SIZE * ((file.bytes.length + CHUNK_SIZE - 1) / CHUNK_SIZE) =
        file.bytes.length ↔ CHUNK_SIZE ∣ file.bytes.length) := by
  refine ⟨sendProgressCalls_mem file.bytes.length 0 (dvd_zero CHUNK_SIZE),
    ?_, ?_, ?_⟩
  · rw [sendProgressCalls_length, Nat.sub_zero]
  · have hlast := sendProgressCalls_getLast file.bytes.length 0 h
    rw [Nat.sub_zero, Nat.zero_add] at hlast
    exact hlast
  · simp only [CHUNK_SIZE]
    omega

/-- C7 witness: the amended claim at a concrete 1-byte file. -/
theorem claim7_progress_witness :
    0 < (FileData.mk "a" [9] "t").bytes.length ∧
      ((∀ p ∈ sendProgressCalls (FileData.mk "a" [9] "t").bytes.length 0,
        ∃ k, 0 < k ∧
        p = ((((k * CHUNK_SIZE : Nat)) : ℚ) /
            (((FileData.mk "a" [9] "t").bytes.length : Nat) : ℚ) * 100,
          k * CHUNK_SIZE)) ∧
      (sendProgressCalls (FileData.mk "a" [9] "t").bytes.length 0).length =
        ((FileData.mk "a" [9] "t").bytes.length + CHUNK_SIZE - 1) /
          CHUNK_SIZE ∧
      (sendProgressCalls (FileData.mk "a" [9] "t").bytes.length 0).getLast? =
        some ((((CHUNK_SIZE *
              (((FileData.mk "a" [9] "t").bytes.length + CHUNK_SIZE - 1) /
                CHUNK_SIZE) : Nat)) : ℚ) /
            (((FileData.mk "a" [9] "t").bytes.length : Nat) : ℚ) * 100,
          CHUNK_SIZE * (((FileData.mk "a" [9] "t").bytes.length +
            CHUNK_SIZE - 1) / CHUNK_SIZE)) ∧
      (CHUNK_SIZE * (((FileData.mk "a" [9] "t").bytes.length + CHUNK_SIZE - 1) /
          CHUNK_SIZE) = (FileData.mk "a" [9] "t").bytes.length ↔
        CHUNK_SIZE ∣ (FileData.mk "a" [9] "t").bytes.length)) :=
  ⟨by decide, claim7_progress (FileData.mk "a" [9] "t") (by decide)⟩

/-! ### Claim C8: progress monotonicity -/

/-- C8: within one transfer the absolute byte counts passed to successive
progress callbacks are non-decreasing, both on the receiver side (for any
delivered frame sequence, starting from the fresh receiver state) and on
the sender side (over the trace of `sendFileOverRTC` for any
buffered-amount readings). -/
theorem claim8_progress_monotonic (frames : List Frame) (file : FileData)
    (readings : List Nat) :
    List.Chain' (· ≤ ·) (progressBytes (recvRun initRecvState frames).2) ∧
    List.Chain' (· ≤ ·) (senderProgressBytes
      (sendFileOverRTC file (some "open") readings).1) := by
  refine ⟨(recvRun_progressBytes_mono frames initRecvState).1, ?_⟩
  show List.Chain' (· ≤ ·) (senderProgressBytes
    (SendEvent.sendText (fileMeta file) :: sendLoop file.bytes 0 readings))
  have hText : senderProgressBytes (SendEvent.sendText (fileMeta file) ::
      sendLoop file.bytes 0 readings) =
      senderProgressBytes (sendLoop file.bytes 0 readings) := rfl
  rw [hText]
  exact (sendLoop_progress_mono file.bytes 0 readings).1

/-! ### Claim C9: offer deferral -/

/-- C9: at session start (join time) `createWebRTCConnection` performs no
offer creation or emission for either role; the initiator creates an
offer, sets the local description and emits it exactly in response to the
`peer-joined` event; the responder never creates or emits an offer in
response to any event; and any offer creation in a session trace implies
the role was initiator and `peer-joined` occurred. -/
theorem claim9_offer_deferral :
    (∀ r : Bool, NegotiationAct.createOffer ∉ setupActs r ∧
      NegotiationAct.emitOffer ∉ setupActs r) ∧
    handleEvent false SigEvent.peerJoined =
      [NegotiationAct.createOffer, NegotiationAct.setLocalDescription,
        NegotiationAct.emitOffer] ∧
    (∀ events : List SigEvent,
      NegotiationAct.createOffer ∉ createWebRTCConnection true events ∧
      NegotiationAct.emitOffer ∉ createWebRTCConnection true events) ∧
    (∀ (r : Bool) (events : List SigEvent),
      NegotiationAct.createOffer ∈ createWebRTCConnection r events →
        r = false ∧ SigEvent.peerJoined ∈ events) := by
  refine ⟨by decide, rfl, ?_, ?_⟩
  · intro events
    constructor <;> intro hmem <;>
      ( rw [createWebRTCConnection] at hmem
        rcases List.mem_append.mp hmem with hm | hm
        · revert hm; decide
        · obtain ⟨e, he, hin⟩ := List.mem_flatMap.mp hm
          cases e <;> revert hin <;> decide )
  · intro r events hmem
    rw [createWebRTCConnection] at hmem
    rcases List.mem_append.mp hmem with hm | hm
    · exfalso
      revert hm
      cases r <;> decide
    · obtain ⟨e, he, hin⟩ := List.mem_flatMap.mp hm
      cases r
      · refine ⟨rfl, ?_⟩
        cases e
        case peerJoined => exact he
        all_goals (exfalso; revert hin; decide)
      · exfalso
        cases e <;> revert hin <;> decide

/-- C9 witness: the initiator's trace for the event list `[peer-joined]`
contains the offer creation, and the implication instantiates. -/
theorem claim9_offer_deferral_witness :
    false = false ∧ SigEvent.peerJoined ∈ [SigEvent.peerJoined] :=
  claim9_offer_deferral.2.2.2 false [SigEvent.peerJoined] (by decide)

/-! ### Claim C10: completion requires exact equality -/

/-- C10: the completion callback fires only at a binary-frame arrival at
which the accumulated `receivedBytes` is exactly the stored metadata's
declared size (with the blob built from all accumulated fragments); and
once `receivedBytes` exceeds the stored metadata's size, no sequence of
further frames can ever trigger the completion callback for that
metadata, because `receivedBytes` never decreases and is never reset. -/
theorem claim10_completion_exact :
    (∀ (s : RecvState) (f : Frame) (m : TransferMeta) (b : Blob),
      RecvEvent.fileReceived m b ∈ (onMessage s f).2 →
        ∃ data, f = Frame.binary data ∧ s.meta = some m ∧
          s.receivedBytes + data.length = m.size ∧
          b = ⟨(s.chunks ++ [data]).flatten, m.type⟩) ∧
    (∀ (s : RecvState) (frames : List Frame) (m : TransferMeta) (b : Blob),
      s.meta = some m → m.size < s.receivedBytes →
        RecvEvent.fileReceived m b ∉ (recvRun s frames).2) :=
  ⟨onMessage_fileReceived, fun s frames m b _ hlt hmem =>
    absurd (recvRun_fileReceived_size frames s m b hmem) (by omega)⟩

/-- C10 witness: both parts at concrete states — a completion firing at
exact equality, and the impossibility of completing once the byte count
exceeds the metadata size. -/
theorem claim10_completion_exact_witness :
    (∃ data, Frame.binary [8] = Frame.binary data ∧
      (RecvState.mk (some (TransferMeta.mk "f" 2 "t")) 1 [[7]]).meta =
        some (TransferMeta.mk "f" 2 "t") ∧
      (RecvState.mk (some (TransferMeta.mk "f" 2 "t")) 1 [[7]]).receivedBytes +
        data.length = (TransferMeta.mk "f" 2 "t").size ∧
      Blob.mk [7, 8] "t" =
        ⟨((RecvState.mk (some (TransferMeta.mk "f" 2 "t")) 1 [[7]]).chunks ++
          [data]).flatten, (TransferMeta.mk "f" 2 "t").type⟩) ∧
    RecvEvent.fileReceived (TransferMeta.mk "f" 2 "t") (Blob.mk [] "t") ∉
      (recvRun (RecvState.mk (some (TransferMeta.mk "f" 2 "t")) 5 [])
        [Frame.binary [1]]).2 :=
  ⟨claim10_completion_exact.1
      (RecvState.mk (some (TransferMeta.mk "f" 2 "t")) 1 [[7]])
      (Frame.binary [8]) (TransferMeta.mk "f" 2 "t") (Blob.mk [7, 8] "t")
      (by decide),
    claim10_completion_exact.2
      (RecvState.mk (some (TransferMeta.mk "f" 2 "t")) 5 [])
      [Frame.binary [1]] (TransferMeta.mk "f" 2 "t") (Blob.mk [] "t") rfl
      (by decide)⟩

/-- C5 witness: the backpressure discipline at a concrete call (absent
channel: empty trace, trivially disciplined, with no write at the head). -/
theorem claim5_backpressure_witness :
    List.Chain' sendStepOK
      (sendFileOverRTC (FileData.mk "a" [1] "t") none []).1 ∧
    (sendFileOverRTC (FileData.mk "a" [1] "t") none []).1.head? ≠
      some (SendEvent.sendBinary [2]) :=
  ⟨(claim5_backpressure (FileData.mk "a" [1] "t") none []).1,
    (claim5_backpressure (FileData.mk "a" [1] "t") none []).2 [2]⟩

/-- C8 witness: progress monotonicity at a concrete frame sequence and a
concrete send call. -/
theorem claim8_progress_monotonic_witness :
    List.Chain' (· ≤ ·)
      (progressBytes (recvRun initRecvState [Frame.binary [1]]).2) ∧
    List.Chain' (· ≤ ·) (senderProgressBytes
      (sendFileOverRTC (FileData.mk "a" [1] "t") (some "open") [0]).1) :=
  claim8_progress_monotonic [Frame.binary [1]] (FileData.mk "a" [1] "t") [0]
